import Mathlib

/-!
# jcouture/env: a shallow embedding of `env.go`

The library wraps the process environment table with six operations
(`Clear`, `Exists`, `Getvars`, `Getnames`, `Join`, `Setvars`) and one private
helper (`contains`).

Modelling choices.

* A Go `string` is a `List Char`.  The only thing the code ever inspects inside
  a string is the separator `=` and whether the string is empty.
* A Go `map[string]string` is a Mathlib `AList`: a list of key/value entries
  whose keys are pairwise distinct.  `m[k] = v` is `AList.insert`, `m[k]` is
  `AList.lookup`, `len(m)` is the number of entries.  Go does not fix the order
  in which `range` visits a map; a `range` loop is a left fold over the entry
  list, and since every theorem quantifies over all association lists, every
  visiting order is covered.
* The process environment table is explicit state: the list of raw entries that
  the process holds.  Functions that read the table take it as an argument,
  functions that write it return the new table.  The platform keeps one entry
  per name: of several raw entries with one name `os.Environ()` returns the
  first only.
-/

namespace env

/-- A Go string, as its sequence of characters. -/
abbrev Str := List Char

/-- A Go `map[string]string`. -/
abbrev GoMap := AList (fun _ : Str => Str)

/-- The process environment table: the raw entries, in table order. -/
abbrev Table := List Str

/-! ## The `strings` package -/

namespace strings

/-- Go's `strings.Split(s, sep)` for a one-character separator: the pieces of
`s` between consecutive occurrences of `sep` (always at least one piece). -/
def Split : Str → Char → List Str
  | [], _ => [[]]
  | c :: cs, sep =>
    if c = sep then [] :: Split cs sep
    else
      match Split cs sep with
      | [] => [[c]]
      | p :: ps => (c :: p) :: ps

/-- Go's `strings.Join(elems, sep)`: the elements concatenated, with `sep`
between consecutive ones. -/
def Join : List Str → Str → Str
  | [], _ => []
  | [a], _ => a
  | a :: b :: rest, sep => a ++ sep ++ Join (b :: rest) sep

end strings

/-! ## The process environment table (`os` package) -/

/-- The name of a raw entry: the text before its first `=`, when it has one. -/
def entryName : Str → Option Str
  | [] => none
  | c :: cs => if c = '=' then some [] else (entryName cs).map (fun n => c :: n)

/-- The value of a raw entry: the text after its first `=`. -/
def entryValue : Str → Str
  | [] => []
  | c :: cs => if c = '=' then cs else entryValue cs

namespace os

/-- Modelled from the spec: the bookkeeping that Go's runtime does on the raw
entries before their first use (`copyenv`), which is not part of the
repository.  The names met so far are `seen`; an entry whose name was met
before is blanked, so that every name keeps its first entry only; an entry
without `=` is left alone. -/
def copyenv (seen : List Str) : List Str → List Str
  | [] => []
  | s :: rest =>
    match entryName s with
    | none => s :: copyenv seen rest
    | some key =>
      if key ∈ seen then [] :: copyenv seen rest
      else s :: copyenv (key :: seen) rest

/-- Modelled from the spec: `os.Environ`, a primitive of the platform that is
not part of the repository.  It returns the `NAME=VALUE` entries of the process
table: the raw entries after `copyenv`, without the blank ones. -/
def Environ (t : Table) : List Str :=
  (copyenv [] t).filter (fun s => decide (s ≠ []))

/-- Modelled from the spec: `os.LookupEnv`, a primitive of the platform that is
not part of the repository.  Exact-match lookup of `key` among the entry names,
the first entry of a name being the one that counts; as in Go's runtime, the
empty name is never found. -/
def LookupEnv (t : Table) (key : Str) : Option Str :=
  if key.length = 0 then none
  else (t.find? (fun s => decide (entryName s = some key))).map entryValue

/-- The arguments that Go's `os.Setenv` accepts: a non-empty name without `=`
and without NUL, and a value without NUL.  Anything else is answered with the
error `EINVAL` and leaves the table as it is. -/
def validSetenv (key value : Str) : Bool :=
  decide (0 < key.length) && !(key.contains '=') && !(key.contains (Char.ofNat 0))
    && !(value.contains (Char.ofNat 0))

/-- Modelled from the spec: `os.Setenv`, a primitive of the platform that is
not part of the repository.  It sets the variable `key` to `value`, overwriting
an existing value: the entry named `key` is rewritten in place when there is
one, and a new entry is appended otherwise.  Of several raw entries named
`key` only the first counts (see `copyenv`), so rewriting every one of them
gives the same entries through `os.Environ` as rewriting the first.  The error
returned for invalid arguments is dropped by the only caller, `Setvars`, so the
model returns the table alone. -/
def Setenv (t : Table) (key value : Str) : Table :=
  if validSetenv key value then
    if t.any (fun s => decide (entryName s = some key)) then
      t.map (fun s => if entryName s = some key then key ++ '=' :: value else s)
    else t ++ [key ++ '=' :: value]
  else t

/-- Modelled from the spec: `os.Unsetenv`, a primitive of the platform that is
not part of the repository.  It removes the entry named `key` (every raw entry
of that name, of which only the first counts); unsetting a name that does not
exist is a no-op. -/
def Unsetenv (t : Table) (key : Str) : Table :=
  t.filter (fun s => !decide (entryName s = some key))

end os

/-! ## `env.go` -/

/-- The helper `contains(s, e)`: a linear scan for an element equal to `e`. -/
def contains : List Str → Str → Bool
  | [], _ => false
  | a :: s, e => if a = e then true else contains s e

/-- The body of the loop of `Getvars`, for one raw entry `line`. -/
def GetvarsStep (vars : GoMap) (line : Str) : GoMap :=
  let result := strings.Split line '='
  if 2 ≤ result.length then
    let n := result.headD []
    let v := strings.Join result.tail ['=']
    vars.insert n v
  else vars

/-- The function `Getvars()`, reading the table `t`. -/
def Getvars (t : Table) : GoMap :=
  (os.Environ t).foldl GetvarsStep ∅

/-- The function `Getnames(vars)`: the keys visited in turn, a key of length
zero being skipped. -/
def Getnames (vars : GoMap) : List Str :=
  vars.entries.foldl (fun names e => if 0 < e.1.length then names ++ [e.1] else names) []

/-- The function `Join(base, override)`.  The Go function writes into `base` and returns it
(or returns `override` itself when `base` is empty); the embedding returns the
contents of the mapping that the Go function returns. -/
def Join (base override : GoMap) : GoMap :=
  if base.entries.length = 0 then override
  else override.entries.foldl (fun m e => m.insert e.1 e.2) base

/-- The function `Setvars(vars)`, acting on the table `t`. -/
def Setvars (t : Table) (vars : GoMap) : Table :=
  vars.entries.foldl (fun t e => os.Setenv t e.1 e.2) t

/-- The function `Exists(name)`, reading the table `t`. -/
def Exists (t : Table) (name : Str) : Bool :=
  (os.LookupEnv t name).isSome

/-- The loop of `Clear` over an already computed list of names. -/
def ClearLoop (exceptions : List Str) (names : List Str) (t : Table) : Table :=
  names.foldl (fun t name => if !contains exceptions name then os.Unsetenv t name else t) t

/-- The function `Clear(except...)`, acting on the table `t`. -/
def Clear (t : Table) (exceptions : List Str) : Table :=
  ClearLoop exceptions (Getnames (Getvars t)) t

/-- The merge without the empty-base shortcut, following the words of the
specification: copy `base` into a fresh mapping, then write every entry of
`override` into it. -/
def JoinCopy (base override : GoMap) : GoMap :=
  let fresh : GoMap := base.entries.foldl (fun m e => m.insert e.1 e.2) ∅
  override.entries.foldl (fun m e => m.insert e.1 e.2) fresh

/-- The value given by the last entry of `t` that is named `k`, and `init` when
no entry of `t` has that name. -/
def lastValue (k : Str) (t : List Str) (init : Option Str) : Option Str :=
  t.foldl (fun acc s => if entryName s = some k then some (entryValue s) else acc) init

/-- The value given by the first entry of `t` that is named `k`, if any. -/
def firstValue (k : Str) (t : List Str) : Option Str :=
  (t.find? (fun s => decide (entryName s = some k))).map entryValue

/-- Whether the loop of `Clear` over `names` keeps an entry, given the entry's
name: an entry goes when its name is one of `names` and is not excepted. -/
def keptBy (exceptions names : List Str) : Option Str → Bool
  | none => true
  | some n => decide (n ∈ names → n ∈ exceptions)

/-- Whether `Clear` keeps an entry, given the entry's name: an entry stays when
it has no name (no `=`), when its name is empty, or when its name is excepted. -/
def survives (exceptions : List Str) : Option Str → Bool
  | none => true
  | some n => decide (n = [] ∨ n ∈ exceptions)

/-- The pairs of `vars` that `os.Setenv` accepts. -/
def accepted (vars : GoMap) : GoMap :=
  ⟨vars.entries.filter (fun e => os.validSetenv e.1 e.2),
    List.NodupKeys.sublist (List.filter_sublist vars.entries) vars.nodupKeys⟩

/-- A mapping with one entry, from string literals. -/
def single (k v : String) : GoMap := (∅ : GoMap).insert k.toList v.toList

/-- The table of the test-suite: `PATH` and the oddly named ` LANG `. -/
def testTable : Table :=
  ["PATH=/usr/bin:/bin:/usr/sbin:/sbin".toList, " LANG =en_CA.UTF-8".toList]

/-! ## The cases of the test-suite, evaluated on the embedding -/

theorem test_Getvars :
    (Getvars testTable).lookup "PATH".toList = some "/usr/bin:/bin:/usr/sbin:/sbin".toList ∧
    (Getvars testTable).lookup " LANG ".toList = some "en_CA.UTF-8".toList ∧
    (Getvars testTable).keys.length = 2 := by
  decide

theorem test_Environ :
    os.Environ ["A=1".toList, "A=2".toList, [], "B=x".toList, "FOO".toList, "A=3".toList] =
      ["A=1".toList, "B=x".toList, "FOO".toList] ∧
    os.Environ testTable = testTable := by
  decide

theorem test_Exists :
    Exists testTable "PATH".toList = true ∧ Exists testTable "BAR".toList = false ∧
    Exists testTable "".toList = false ∧ Exists testTable " ".toList = false ∧
    Exists testTable "path".toList = false ∧ Exists testTable " LANG ".toList = true := by
  decide

theorem test_Clear :
    (Clear testTable []).length = 0 ∧ (Clear testTable ["PATH".toList]).length = 1 ∧
    (Clear testTable ["BAR".toList]).length = 0 ∧ (Clear testTable ["".toList]).length = 0 ∧
    (Clear testTable [" ".toList]).length = 0 ∧ (Clear testTable ["path".toList]).length = 0 ∧
    (Clear testTable [" LANG ".toList]).length = 1 := by
  decide

theorem test_Setvars :
    (Getvars (Setvars (Clear testTable []) ∅)).keys.length = 0 ∧
    (Getvars (Setvars testTable (single "COLOR" "RED"))).keys.length = 3 ∧
    (Getvars (Setvars testTable (single "PATH" "/usr/bin"))).lookup "PATH".toList
      = some "/usr/bin".toList ∧
    (Getvars (Setvars testTable (single "PATH" "/usr/bin"))).keys.length = 2 ∧
    (Getvars (Setvars testTable (single "path" "/usr/bin"))).keys.length = 3 := by
  decide

theorem test_Join :
    (Join ∅ (single "COLOR" "RED")).entries = (single "COLOR" "RED").entries ∧
    (Join (single "FOO" "BAR") ∅).entries = (single "FOO" "BAR").entries ∧
    (Join (single "FOO" "BAR") (single "COLOR" "RED")).keys.length = 2 ∧
    (Join (single "FOO" "BAR") (single "FOO" "BAZ")).entries = (single "FOO" "BAZ").entries := by
  decide

theorem test_contains :
    contains [] "FOO".toList = false ∧ contains ["BAR".toList] "FOO".toList = false ∧
    contains ["FOO".toList] "FOO".toList = true ∧
    contains ["FOO".toList] "foo".toList = false := by
  decide

/-! ## Lemmas on splitting and rejoining -/

theorem Split_cons (c : Char) (cs : Str) (sep : Char) :
    strings.Split (c :: cs) sep =
      if c = sep then [] :: strings.Split cs sep
      else
        match strings.Split cs sep with
        | [] => [[c]]
        | p :: ps => (c :: p) :: ps := by
  rw [strings.Split]

theorem Split_ne_nil (s : Str) (sep : Char) : strings.Split s sep ≠ [] := by
  induction s with
  | nil => simp [strings.Split]
  | cons c cs ih =>
    unfold strings.Split
    split_ifs
    · simp
    · split <;> simp

theorem Join_cons_cons (c : Char) (p : Str) (ps : List Str) (sep : Str) :
    strings.Join ((c :: p) :: ps) sep = c :: strings.Join (p :: ps) sep := by
  cases ps <;> simp [strings.Join]

theorem Join_Split (s : Str) (sep : Char) : strings.Join (strings.Split s sep) [sep] = s := by
  induction s with
  | nil => simp [strings.Split, strings.Join]
  | cons c cs ih =>
    unfold strings.Split
    split_ifs with h
    · obtain ⟨p, ps, hp⟩ := List.exists_cons_of_ne_nil (Split_ne_nil cs sep)
      rw [hp] at ih ⊢
      simp [strings.Join, ih, h]
    · obtain ⟨p, ps, hp⟩ := List.exists_cons_of_ne_nil (Split_ne_nil cs sep)
      rw [hp] at ih ⊢
      simp [Join_cons_cons, ih]

theorem Split_eq (s : Str) :
    strings.Split s '=' =
      match entryName s with
      | none => [s]
      | some n => n :: strings.Split (entryValue s) '=' := by
  induction s with
  | nil => simp [strings.Split, entryName]
  | cons c cs ih =>
    rw [Split_cons]
    by_cases h : c = '='
    · simp [h, entryName, entryValue]
    · rw [if_neg h, ih]
      cases hn : entryName cs <;> simp [entryName, entryValue, h, hn]

theorem GetvarsStep_eq (vars : GoMap) (line : Str) :
    GetvarsStep vars line =
      match entryName line with
      | none => vars
      | some n => vars.insert n (entryValue line) := by
  unfold GetvarsStep
  rw [Split_eq]
  cases hn : entryName line with
  | none => simp
  | some n =>
    obtain ⟨p, ps, hp⟩ := List.exists_cons_of_ne_nil (Split_ne_nil (entryValue line) '=')
    have hj := Join_Split (entryValue line) '='
    simp only [List.length_cons, List.headD_cons, List.tail_cons, hj]
    simp [hp]

theorem entryName_append (n v : Str) (h : '=' ∉ n) : entryName (n ++ '=' :: v) = some n := by
  induction n with
  | nil => simp [entryName]
  | cons c cs ih =>
    have hc : c ≠ '=' := fun e => h (by simp [e])
    have hcs : '=' ∉ cs := fun e => h (by simp [e])
    simp [entryName, hc, ih hcs]

theorem entryValue_append (n v : Str) (h : '=' ∉ n) : entryValue (n ++ '=' :: v) = v := by
  induction n with
  | nil => simp [entryValue]
  | cons c cs ih =>
    have hc : c ≠ '=' := fun e => h (by simp [e])
    have hcs : '=' ∉ cs := fun e => h (by simp [e])
    simp [entryValue, hc, ih hcs]

/-! ## What a snapshot contains -/

theorem lookup_GetvarsStep (vars : GoMap) (line k : Str) :
    (GetvarsStep vars line).lookup k =
      if entryName line = some k then some (entryValue line) else vars.lookup k := by
  rw [GetvarsStep_eq]
  cases hn : entryName line with
  | none => simp
  | some n =>
    by_cases hk : n = k
    · subst hk
      simp
    · have hk2 : k ≠ n := fun e => hk e.symm
      simp [hk, AList.lookup_insert_ne hk2]

theorem lookup_foldl_GetvarsStep (t : List Str) (vars : GoMap) (k : Str) :
    (t.foldl GetvarsStep vars).lookup k = lastValue k t (vars.lookup k) := by
  induction t generalizing vars with
  | nil => simp [lastValue]
  | cons s t ih =>
    rw [List.foldl_cons, ih, lookup_GetvarsStep]
    simp [lastValue]

theorem lastValue_cons (k s : Str) (t : List Str) (init : Option Str) :
    lastValue k (s :: t) init =
      lastValue k t (if entryName s = some k then some (entryValue s) else init) := by
  simp [lastValue]

theorem firstValue_cons (k s : Str) (t : List Str) :
    firstValue k (s :: t) =
      if entryName s = some k then some (entryValue s) else firstValue k t := by
  unfold firstValue
  by_cases h : entryName s = some k <;> simp [List.find?_cons, h]

theorem copyenv_cons (seen : List Str) (s : Str) (rest : List Str) :
    os.copyenv seen (s :: rest) =
      match entryName s with
      | none => s :: os.copyenv seen rest
      | some key =>
        if key ∈ seen then [] :: os.copyenv seen rest
        else s :: os.copyenv (key :: seen) rest := by
  rw [os.copyenv]

theorem ne_nil_of_entryName (s n : Str) (h : entryName s = some n) : s ≠ [] := by
  intro e
  rw [e] at h
  simp [entryName] at h

theorem lastValue_copyenv (k : Str) (t : List Str) (seen : List Str) (init : Option Str) :
    lastValue k ((os.copyenv seen t).filter (fun s => decide (s ≠ []))) init =
      if k ∈ seen then init else (firstValue k t <|> init) := by
  induction t generalizing seen init with
  | nil => simp [os.copyenv, lastValue, firstValue]
  | cons s t ih =>
    rw [copyenv_cons, firstValue_cons]
    cases hn : entryName s with
    | none =>
      have hk : ¬ (none : Option Str) = some k := by simp
      simp only [if_neg hk]
      rw [List.filter_cons]
      by_cases hs : s = []
      · simp only [hs, ne_eq, not_true_eq_false, decide_False, Bool.false_eq_true, if_false]
        exact ih seen init
      · simp only [hs, ne_eq, not_false_eq_true, decide_True, if_true]
        rw [lastValue_cons, hn, if_neg hk]
        exact ih seen init
    | some key =>
      simp only
      by_cases hseen : key ∈ seen
      · rw [if_pos hseen, List.filter_cons]
        simp only [ne_eq, not_true_eq_false, decide_False, Bool.false_eq_true, if_false]
        rw [ih seen init]
        by_cases hks : k ∈ seen
        · simp [hks]
        · have hne : ¬ some key = some k := by
            intro e
            exact hks (by rw [← Option.some.inj e]; exact hseen)
          simp [hks, hne]
      · have hs : s ≠ [] := ne_nil_of_entryName s key hn
        rw [if_neg hseen, List.filter_cons]
        simp only [hs, ne_eq, not_false_eq_true, decide_True, if_true]
        rw [lastValue_cons, hn, ih (key :: seen)]
        by_cases hkk : key = k
        · subst hkk
          simp [hseen]
        · have hkk2 : ¬ k = key := fun e => hkk e.symm
          simp [hkk, hkk2]

theorem lookup_Getvars (t : Table) (k : Str) :
    (Getvars t).lookup k = firstValue k t := by
  unfold Getvars os.Environ
  rw [lookup_foldl_GetvarsStep, lastValue_copyenv]
  simp

theorem mem_Getvars (t : Table) (k : Str) :
    k ∈ Getvars t ↔ ∃ s ∈ t, entryName s = some k := by
  rw [← AList.lookup_isSome, lookup_Getvars]
  unfold firstValue
  simp [List.find?_isSome]

theorem firstValue_filter (q : Option Str → Bool) (k : Str) (t : List Str) :
    firstValue k (t.filter (fun s => q (entryName s))) =
      if q (some k) then firstValue k t else none := by
  induction t with
  | nil => simp [firstValue]
  | cons s t ih =>
    rw [List.filter_cons]
    by_cases hq : q (entryName s) = true
    · rw [if_pos hq, firstValue_cons, firstValue_cons, ih]
      by_cases hn : entryName s = some k
      · rw [hn] at hq
        simp [hn, hq]
      · simp [hn]
    · rw [if_neg hq, firstValue_cons, ih]
      by_cases hn : entryName s = some k
      · rw [hn] at hq
        simp [hq]
      · simp [hn]

/-! ## Merging mappings -/

theorem lookup_foldl_insert (es : List (Sigma (fun _ : Str => Str))) (hes : es.NodupKeys)
    (m : GoMap) (k : Str) :
    (es.foldl (fun m e => m.insert e.1 e.2) m).lookup k =
      (List.dlookup k es <|> m.lookup k) := by
  induction es generalizing m with
  | nil => simp
  | cons e es ih =>
    obtain ⟨a, b⟩ := e
    rw [List.nodupKeys_cons] at hes
    rw [List.foldl_cons, ih hes.2]
    by_cases hk : k = a
    · subst hk
      have hnone : List.dlookup k es = none := List.dlookup_eq_none.2 hes.1
      simp [hnone]
    · have hk2 : a ≠ k := fun e => hk e.symm
      have h2 : List.dlookup k (⟨a, b⟩ :: es) = List.dlookup k es :=
        List.dlookup_cons_ne es (⟨a, b⟩ : Sigma (fun _ : Str => Str)) hk
      simp [AList.lookup_insert_ne hk, h2]

theorem lookup_Join (base override : GoMap) (k : Str) :
    (Join base override).lookup k = (override.lookup k <|> base.lookup k) := by
  unfold Join
  split_ifs with h
  · have hb : base.lookup k = none := by
      have : base.entries = [] := List.length_eq_zero.1 h
      simp [AList.lookup, this]
    simp [hb]
  · rw [lookup_foldl_insert _ override.nodupKeys]
    rfl

theorem lookup_JoinCopy (base override : GoMap) (k : Str) :
    (JoinCopy base override).lookup k = (override.lookup k <|> base.lookup k) := by
  unfold JoinCopy
  simp only
  rw [lookup_foldl_insert _ override.nodupKeys, lookup_foldl_insert _ base.nodupKeys]
  simp [AList.lookup]

theorem mem_Join (base override : GoMap) (k : Str) :
    k ∈ Join base override ↔ k ∈ base ∨ k ∈ override := by
  rw [← AList.lookup_isSome, ← AList.lookup_isSome, ← AList.lookup_isSome, lookup_Join]
  cases override.lookup k <;> cases base.lookup k <;> simp

theorem foldl_names (es : List (Sigma (fun _ : Str => Str))) (acc : List Str) :
    es.foldl (fun names e => if 0 < e.1.length then names ++ [e.1] else names) acc =
      acc ++ (es.map Sigma.fst).filter (fun n => decide (0 < n.length)) := by
  induction es generalizing acc with
  | nil => simp
  | cons e es ih =>
    rw [List.foldl_cons, ih]
    by_cases h : 0 < e.1.length
    · simp [h, List.filter_cons]
    · simp [h, List.filter_cons]

theorem Getnames_eq (vars : GoMap) :
    Getnames vars = vars.keys.filter (fun n => decide (0 < n.length)) := by
  unfold Getnames
  rw [foldl_names]
  rfl

theorem mem_Getnames (vars : GoMap) (n : Str) :
    n ∈ Getnames vars ↔ n ∈ vars ∧ n ≠ [] := by
  rw [Getnames_eq, List.mem_filter, AList.mem_keys]
  simp [List.length_pos]

/-! ## Writing the table -/

theorem validSetenv_iff (key value : Str) :
    os.validSetenv key value = true ↔
      key ≠ [] ∧ '=' ∉ key ∧ Char.ofNat 0 ∉ key ∧ Char.ofNat 0 ∉ value := by
  simp [os.validSetenv, List.length_pos, and_assoc]

theorem firstValue_append_single (k key value : Str) (hkey : '=' ∉ key) (t : List Str)
    (hnone : ¬ t.any (fun s => decide (entryName s = some key)) = true) :
    firstValue k (t ++ [key ++ '=' :: value]) =
      if k = key then some value else firstValue k t := by
  induction t with
  | nil =>
    rw [List.nil_append, firstValue_cons, entryName_append _ _ hkey,
      entryValue_append _ _ hkey]
    by_cases hk : k = key
    · simp [hk]
    · have hk2 : ¬ key = k := fun e => hk e.symm
      simp [hk, hk2, firstValue]
  | cons s t ih =>
    have hs : ¬ entryName s = some key := by
      intro e
      exact hnone (by simp [e])
    have ht : ¬ t.any (fun s => decide (entryName s = some key)) = true := by
      intro e
      exact hnone (by simp only [List.any_cons, e, Bool.or_true])
    rw [List.cons_append, firstValue_cons, firstValue_cons, ih ht]
    by_cases hk : k = key
    · subst hk
      simp [hs]
    · simp [hk]

theorem firstValue_map_set (key value k : Str) (hkey : '=' ∉ key) (t : List Str) :
    firstValue k (t.map (fun s => if entryName s = some key then key ++ '=' :: value else s)) =
      if k = key then
        (if t.any (fun s => decide (entryName s = some key)) then some value else none)
      else firstValue k t := by
  induction t with
  | nil => simp [firstValue]
  | cons s t ih =>
    rw [List.map_cons, firstValue_cons, ih, firstValue_cons]
    by_cases hs : entryName s = some key
    · by_cases hk : k = key
      · subst hk
        simp [hs, entryName_append _ _ hkey, entryValue_append _ _ hkey]
      · have hk2 : key ≠ k := fun e => hk e.symm
        simp [hs, hk, hk2, entryName_append _ _ hkey]
    · by_cases hk : k = key
      · subst hk
        simp [hs]
      · simp [hs, hk]

theorem lookup_Getvars_Setenv (t : Table) (key value k : Str)
    (h : os.validSetenv key value = true) :
    (Getvars (os.Setenv t key value)).lookup k =
      if k = key then some value else (Getvars t).lookup k := by
  have hkey : '=' ∉ key := ((validSetenv_iff key value).1 h).2.1
  rw [lookup_Getvars, lookup_Getvars]
  unfold os.Setenv
  rw [if_pos h]
  by_cases hany : t.any (fun s => decide (entryName s = some key)) = true
  · rw [if_pos hany, firstValue_map_set _ _ _ hkey]
    simp [hany]
  · rw [if_neg hany, firstValue_append_single _ _ _ hkey _ hany]

theorem Setenv_of_invalid (t : Table) (key value : Str)
    (h : ¬ os.validSetenv key value = true) : os.Setenv t key value = t := by
  unfold os.Setenv
  rw [if_neg h]

theorem dlookup_filter_valid (es : List (Sigma (fun _ : Str => Str))) (hes : es.NodupKeys)
    (k : Str) :
    List.dlookup k (es.filter (fun e => os.validSetenv e.1 e.2)) =
      (List.dlookup k es).filter (fun v => os.validSetenv k v) := by
  induction es with
  | nil => simp [Option.filter]
  | cons e es ih =>
    obtain ⟨a, b⟩ := e
    rw [List.nodupKeys_cons] at hes
    rw [List.filter_cons]
    by_cases hk : k = a
    · subst hk
      have hnone : List.dlookup k es = none := List.dlookup_eq_none.2 hes.1
      by_cases hv : os.validSetenv k b = true
      · simp [hv, Option.filter]
      · have hv2 : os.validSetenv k b = false := by simpa using hv
        rw [if_neg (by simpa using hv2), ih hes.2, hnone]
        simp [hv2, Option.filter]
    · have h2 : ∀ l, List.dlookup k (⟨a, b⟩ :: l) = List.dlookup k l :=
        fun l => List.dlookup_cons_ne l (⟨a, b⟩ : Sigma (fun _ : Str => Str)) hk
      by_cases hv : os.validSetenv a b = true
      · rw [if_pos hv, h2, h2, ih hes.2]
      · rw [if_neg hv, h2, ih hes.2]

theorem lookup_accepted (vars : GoMap) (k : Str) :
    (accepted vars).lookup k = (vars.lookup k).filter (fun v => os.validSetenv k v) :=
  dlookup_filter_valid vars.entries vars.nodupKeys k

theorem lookup_Getvars_foldl_Setenv_any (es : List (Sigma (fun _ : Str => Str)))
    (hes : es.NodupKeys) (t : Table) (k : Str) :
    (Getvars (es.foldl (fun t e => os.Setenv t e.1 e.2) t)).lookup k =
      ((List.dlookup k es).filter (fun v => os.validSetenv k v) <|> (Getvars t).lookup k) := by
  induction es generalizing t with
  | nil => simp [Option.filter]
  | cons e es ih =>
    obtain ⟨a, b⟩ := e
    rw [List.nodupKeys_cons] at hes
    rw [List.foldl_cons, ih hes.2]
    by_cases hk : k = a
    · subst hk
      have hnone : List.dlookup k es = none := List.dlookup_eq_none.2 hes.1
      by_cases hv : os.validSetenv k b = true
      · simp [hnone, lookup_Getvars_Setenv _ _ _ _ hv, hv, Option.filter]
      · have hv2 : os.validSetenv k b = false := by simpa using hv
        simp [hnone, Setenv_of_invalid _ _ _ hv, hv2, Option.filter]
    · have h2 : List.dlookup k (⟨a, b⟩ :: es) = List.dlookup k es :=
        List.dlookup_cons_ne es (⟨a, b⟩ : Sigma (fun _ : Str => Str)) hk
      rw [h2]
      by_cases hv : os.validSetenv a b = true
      · simp [lookup_Getvars_Setenv _ _ _ _ hv, hk]
      · simp [Setenv_of_invalid _ _ _ hv]

theorem lookup_Getvars_Setvars_any (t : Table) (vars : GoMap) (k : Str) :
    (Getvars (Setvars t vars)).lookup k =
      ((vars.lookup k).filter (fun v => os.validSetenv k v) <|> (Getvars t).lookup k) := by
  unfold Setvars
  rw [lookup_Getvars_foldl_Setenv_any _ vars.nodupKeys]
  rfl

theorem lookup_Getvars_Setvars (t : Table) (vars : GoMap)
    (hval : ∀ e ∈ vars.entries, os.validSetenv e.1 e.2 = true) (k : Str) :
    (Getvars (Setvars t vars)).lookup k = (vars.lookup k <|> (Getvars t).lookup k) := by
  rw [lookup_Getvars_Setvars_any]
  cases hv : vars.lookup k with
  | none => simp [Option.filter]
  | some v =>
    have hmem : (⟨k, v⟩ : Sigma (fun _ : Str => Str)) ∈ vars.entries :=
      AList.mem_lookup_iff.1 (by simp [hv])
    have hvalid : os.validSetenv k v = true := hval ⟨k, v⟩ hmem
    simp [Option.filter, hvalid]

/-! ## Clearing the table -/

theorem contains_iff (s : List Str) (e : Str) : contains s e = true ↔ e ∈ s := by
  induction s with
  | nil => simp [contains]
  | cons a s ih =>
    unfold contains
    by_cases h : a = e
    · simp [h]
    · have h2 : ¬ e = a := fun x => h x.symm
      simp [h, h2, ih]

theorem ClearLoop_eq (exceptions names : List Str) (t : Table) :
    ClearLoop exceptions names t = t.filter (fun s => keptBy exceptions names (entryName s)) := by
  induction names generalizing t with
  | nil =>
    have hall : ∀ o : Option Str, keptBy exceptions [] o = true := by
      intro o
      cases o <;> simp [keptBy]
    simp [ClearLoop, hall]
  | cons n ns ih =>
    have hstep : ClearLoop exceptions (n :: ns) t =
        ClearLoop exceptions ns
          (if !contains exceptions n then os.Unsetenv t n else t) := by
      simp [ClearLoop]
    rw [hstep, ih]
    by_cases hc : contains exceptions n = true
    · have hmem : n ∈ exceptions := (contains_iff _ _).1 hc
      simp only [hc, Bool.not_true, Bool.false_eq_true, if_false]
      apply List.filter_congr
      intro s _
      cases hn : entryName s with
      | none => simp [keptBy]
      | some m =>
        by_cases hm : m = n
        · subst hm
          simp [keptBy, hmem]
        · simp [keptBy, hm]
    · have hmem : n ∉ exceptions := fun h => hc ((contains_iff _ _).2 h)
      have hcf : contains exceptions n = false := by simpa using hc
      simp only [hcf, Bool.not_false, if_true, os.Unsetenv, List.filter_filter]
      apply List.filter_congr
      intro s _
      cases hn : entryName s with
      | none => simp [keptBy]
      | some m =>
        by_cases hm : m = n
        · subst hm
          simp [keptBy, hmem]
        · simp [keptBy, hm]

theorem Clear_eq (t : Table) (exceptions : List Str) :
    Clear t exceptions = t.filter (fun s => survives exceptions (entryName s)) := by
  unfold Clear
  rw [ClearLoop_eq]
  apply List.filter_congr
  intro s hs
  cases hn : entryName s with
  | none => simp [keptBy, survives]
  | some m =>
    have hmem : m ∈ Getnames (Getvars t) ↔ m ≠ [] := by
      rw [mem_Getnames, mem_Getvars]
      constructor
      · exact fun h => h.2
      · exact fun h => ⟨⟨s, hs, hn⟩, h⟩
    by_cases hm : m = []
    · subst hm
      have hnot : ([] : Str) ∉ Getnames (Getvars t) := fun h => (hmem.1 h) rfl
      simp [keptBy, survives, hnot]
    · simp [keptBy, survives, hmem, hm]

theorem lookup_Getvars_Clear (t : Table) (exceptions : List Str) (k : Str) :
    (Getvars (Clear t exceptions)).lookup k =
      if k = [] ∨ k ∈ exceptions then (Getvars t).lookup k else none := by
  rw [lookup_Getvars, lookup_Getvars, Clear_eq, firstValue_filter]
  simp [survives]

theorem mem_Getvars_Clear (t : Table) (exceptions : List Str) (k : Str) :
    k ∈ Getvars (Clear t exceptions) ↔ k ∈ Getvars t ∧ (k ∈ exceptions ∨ k = []) := by
  rw [← AList.lookup_isSome, ← AList.lookup_isSome, lookup_Getvars_Clear]
  by_cases h : k = [] ∨ k ∈ exceptions
  · rw [if_pos h]
    have h2 : k ∈ exceptions ∨ k = [] := h.symm
    simp [h2]
  · rw [if_neg h]
    have h2 : ¬ (k ∈ exceptions ∨ k = []) := fun x => h x.symm
    simp [h2]

theorem Exists_iff (t : Table) (name : Str) :
    Exists t name = true ↔ name ≠ [] ∧ name ∈ Getvars t := by
  unfold Exists os.LookupEnv
  by_cases h : name = []
  · simp [h]
  · have hl : ¬ name.length = 0 := fun e => h (List.length_eq_zero.1 e)
    rw [if_neg hl, mem_Getvars]
    simp only [Option.isSome_map', List.find?_isSome, decide_eq_true_eq]
    simp [h]

theorem entryName_of_mem (line : Str) (h : '=' ∈ line) : ∃ n, entryName line = some n := by
  induction line with
  | nil => simp at h
  | cons c cs ih =>
    by_cases hc : c = '='
    · exact ⟨[], by simp [entryName, hc]⟩
    · have hcs : '=' ∈ cs := by
        rcases List.mem_cons.1 h with e | e
        · exact absurd e.symm hc
        · exact e
      obtain ⟨n, hn⟩ := ih hcs
      exact ⟨c :: n, by simp [entryName, hc, hn]⟩

theorem entryName_some (line n : Str) (h : entryName line = some n) :
    line = n ++ '=' :: entryValue line ∧ '=' ∉ n := by
  induction line generalizing n with
  | nil => simp [entryName] at h
  | cons c cs ih =>
    by_cases hc : c = '='
    · simp [entryName, hc] at h
      subst h
      simp [entryValue, hc]
    · simp only [entryName, hc, if_false, Option.map_eq_some'] at h
      obtain ⟨m, hm, rfl⟩ := h
      obtain ⟨h1, h2⟩ := ih m hm
      have hc2 : ¬ '=' = c := fun e => hc e.symm
      refine ⟨?_, by simp [hc2, h2]⟩
      simp only [entryValue, hc, if_false, List.cons_append]
      rw [← h1]

/-! ## Further lemmas on raw entries -/

theorem entryName_eq_none (line : Str) : entryName line = none ↔ '=' ∉ line := by
  constructor
  · intro h hmem
    obtain ⟨n, hn⟩ := entryName_of_mem line hmem
    rw [h] at hn
    exact absurd hn (by simp)
  · intro h
    cases hn : entryName line with
    | none => rfl
    | some n =>
      have hline := (entryName_some line n hn).1
      exact absurd (by rw [hline]; simp) h

theorem GetvarsStep_of_not_mem (vars : GoMap) (line : Str) (h : '=' ∉ line) :
    GetvarsStep vars line = vars := by
  rw [GetvarsStep_eq, (entryName_eq_none line).2 h]

theorem foldl_GetvarsStep_filter (t : List Str) (vars : GoMap) :
    (t.filter (fun l => l.contains '=')).foldl GetvarsStep vars = t.foldl GetvarsStep vars := by
  induction t generalizing vars with
  | nil => rfl
  | cons s t ih =>
    rw [List.filter_cons]
    by_cases h : '=' ∈ s
    · have hc : s.contains '=' = true := by simpa using h
      rw [if_pos hc, List.foldl_cons, List.foldl_cons, ih]
    · have hc : ¬ (s.contains '=' = true) := by simpa using h
      rw [if_neg hc, List.foldl_cons, GetvarsStep_of_not_mem vars s h, ih]

theorem mem_Getvars_iff_prefix (t : Table) (k : Str) :
    k ∈ Getvars t ↔ ∃ v, (k ++ '=' :: v) ∈ t ∧ '=' ∉ k := by
  rw [mem_Getvars]
  constructor
  · rintro ⟨s, hs, hn⟩
    obtain ⟨hline, hk⟩ := entryName_some s k hn
    exact ⟨entryValue s, by rw [← hline]; exact hs, hk⟩
  · rintro ⟨v, hv, hk⟩
    exact ⟨k ++ '=' :: v, hv, entryName_append k v hk⟩

theorem contains_eq_iff (s : Str) : s.contains '=' = true ↔ entryName s ≠ none := by
  rw [Ne, entryName_eq_none]
  simp

theorem copyenv_filter (t : List Str) (seen : List Str) :
    ((os.copyenv seen t).filter (fun s => decide (s ≠ []))).filter (fun l => l.contains '=') =
      (os.copyenv seen (t.filter (fun l => l.contains '='))).filter
        (fun s => decide (s ≠ [])) := by
  induction t generalizing seen with
  | nil => simp [os.copyenv]
  | cons s t ih =>
    cases hn : entryName s with
    | none =>
      have hc : ¬ (s.contains '=' = true) := by
        rw [contains_eq_iff, hn]
        simp
      rw [copyenv_cons, hn, List.filter_cons (p := fun l => l.contains '=') (x := s),
        if_neg hc, ← ih seen]
      simp only
      rw [List.filter_cons]
      by_cases hs : s = []
      · simp [hs]
      · simp only [hs, ne_eq, not_false_eq_true, decide_True, if_true]
        rw [List.filter_cons, if_neg hc]
    | some key =>
      have hc : s.contains '=' = true := by
        rw [contains_eq_iff, hn]
        simp
      have hs : s ≠ [] := ne_nil_of_entryName s key hn
      rw [copyenv_cons, hn, List.filter_cons (p := fun l => l.contains '=') (x := s),
        if_pos hc, copyenv_cons, hn]
      simp only
      by_cases hseen : key ∈ seen
      · rw [if_pos hseen, if_pos hseen, List.filter_cons, List.filter_cons]
        simp only [ne_eq, not_true_eq_false, decide_False, Bool.false_eq_true, if_false]
        exact ih seen
      · rw [if_neg hseen, if_neg hseen, List.filter_cons, List.filter_cons]
        simp only [hs, ne_eq, not_false_eq_true, decide_True, if_true]
        rw [List.filter_cons, if_pos hc, ih (key :: seen)]

theorem Getvars_filter (t : Table) :
    Getvars (t.filter (fun l => l.contains '=')) = Getvars t := by
  unfold Getvars os.Environ
  rw [← copyenv_filter, foldl_GetvarsStep_filter]

theorem firstValue_append_of_not_named (k : Str) (t1 t2 : List Str)
    (h : ∀ s ∈ t1, entryName s ≠ some k) :
    firstValue k (t1 ++ t2) = firstValue k t2 := by
  induction t1 with
  | nil => rfl
  | cons s t ih =>
    rw [List.cons_append, firstValue_cons, if_neg (h s (by simp)),
      ih (fun x hx => h x (by simp [hx]))]

theorem survives_congr (e1 e2 : List Str) (h : ∀ x, x ∈ e1 ↔ x ∈ e2) (o : Option Str) :
    survives e1 o = survives e2 o := by
  cases o with
  | none => rfl
  | some n => simp [survives, h n]

/-! ## The claims -/

/-- C1: in the result of `Join(base, override)` every key of `override` has the
value that `override` gives it, and every key of `base` that is not a key of
`override` has the value that `base` gives it. -/
theorem Join_values (base override : GoMap) :
    (∀ k ∈ override, (Join base override).lookup k = override.lookup k) ∧
    (∀ k ∈ base, k ∉ override → (Join base override).lookup k = base.lookup k) := by
  constructor
  · intro k hk
    rw [lookup_Join]
    obtain ⟨v, hv⟩ := Option.isSome_iff_exists.1 (AList.lookup_isSome.2 hk)
    simp [hv]
  · intro k _ hk
    rw [lookup_Join, AList.lookup_eq_none.2 hk]
    simp

/-- An instance of C1 on the merge of the test-suite that overrides `FOO`. -/
theorem Join_values_witness :
    (Join (single "FOO" "BAR") (single "FOO" "BAZ")).lookup "FOO".toList =
      (single "FOO" "BAZ").lookup "FOO".toList :=
  (Join_values (single "FOO" "BAR") (single "FOO" "BAZ")).1 "FOO".toList
    (AList.mem_keys.1 (by decide))

/-- C2: the keys of `Join(base, override)` are exactly the keys of `base`
together with the keys of `override`, and the number of entries of the result
is the size of that union. -/
theorem Join_keys (base override : GoMap) :
    (∀ k, k ∈ Join base override ↔ k ∈ base ∨ k ∈ override) ∧
    (Join base override).entries.length =
      (base.keys.toFinset ∪ override.keys.toFinset).card := by
  refine ⟨fun k => mem_Join base override k, ?_⟩
  have hset : base.keys.toFinset ∪ override.keys.toFinset =
      (Join base override).keys.toFinset := by
    ext k
    simp only [Finset.mem_union, List.mem_toFinset, AList.mem_keys]
    exact (mem_Join base override k).symm
  rw [hset, List.toFinset_card_of_nodup (AList.keys_nodup _)]
  simp [AList.keys, List.keys]

/-- C3: for a raw entry that contains `=`, the loop of `Getvars` records the text
`n` before the first `=` as the name and the whole text `v` after the first `=`
as the value: the first segment of the split is `n`, and the remaining segments
rejoined with `=` are `v`, further `=` characters included. -/
theorem Getvars_entry (vars : GoMap) (line : Str) (h : '=' ∈ line) :
    ∃ n v, line = n ++ '=' :: v ∧ '=' ∉ n ∧
      (strings.Split line '=').head? = some n ∧
      strings.Join (strings.Split line '=').tail ['='] = v ∧
      GetvarsStep vars line = vars.insert n v := by
  obtain ⟨n, hn⟩ := entryName_of_mem line h
  obtain ⟨hline, hnot⟩ := entryName_some line n hn
  refine ⟨n, entryValue line, hline, hnot, ?_, ?_, ?_⟩
  · rw [Split_eq, hn]
    rfl
  · rw [Split_eq, hn]
    exact Join_Split (entryValue line) '='
  · rw [GetvarsStep_eq, hn]

/-- An instance of C3: the entry `A=b=c` is recorded as `A` with the value `b=c`. -/
theorem Getvars_entry_witness :
    '=' ∈ "A=b=c".toList ∧
    ∃ n v, "A=b=c".toList = n ++ '=' :: v ∧ '=' ∉ n ∧
      (strings.Split "A=b=c".toList '=').head? = some n ∧
      strings.Join (strings.Split "A=b=c".toList '=').tail ['='] = v ∧
      GetvarsStep ∅ "A=b=c".toList = (∅ : GoMap).insert n v :=
  ⟨by decide, Getvars_entry ∅ "A=b=c".toList (by decide)⟩

/-- C4, as stated, fails: `os.Setenv` rejects a name that contains `=` and
`Setvars` drops the error, so after `Setvars({"A=B": "c"})` on the empty table
the snapshot does not contain the pair. -/
theorem Setvars_roundtrip_fails :
    ¬ ((Getvars (Setvars [] (single "A=B" "c"))).lookup "A=B".toList = some "c".toList) := by
  decide

/-- C4, amended: the snapshot taken after `Setvars(vars)` contains exactly once
every name/value pair of `vars` whose name is non-empty and free of `=` and
NUL and whose value is free of NUL, the name and the value exactly as given,
whatever the other pairs of `vars` are; a pair that `os.Setenv` rejects leaves
the snapshot's entry for its name as it was. -/
theorem Setvars_roundtrip (t : Table) (vars : GoMap) (k v : Str)
    (hkv : vars.lookup k = some v) :
    (k ≠ [] ∧ '=' ∉ k ∧ Char.ofNat 0 ∉ k ∧ Char.ofNat 0 ∉ v →
      (Getvars (Setvars t vars)).lookup k = some v ∧
      (Getvars (Setvars t vars)).entries.count ⟨k, v⟩ = 1) ∧
    (¬ (k ≠ [] ∧ '=' ∉ k ∧ Char.ofNat 0 ∉ k ∧ Char.ofNat 0 ∉ v) →
      (Getvars (Setvars t vars)).lookup k = (Getvars t).lookup k) := by
  constructor
  · intro hval
    have hvalid : os.validSetenv k v = true := (validSetenv_iff k v).2 hval
    have hl : (Getvars (Setvars t vars)).lookup k = some v := by
      rw [lookup_Getvars_Setvars_any, hkv]
      simp [Option.filter, hvalid]
    refine ⟨hl, ?_⟩
    have hmem : (⟨k, v⟩ : Sigma (fun _ : Str => Str)) ∈ (Getvars (Setvars t vars)).entries :=
      AList.mem_lookup_iff.1 (by simp [hl])
    exact List.count_eq_one_of_mem (Getvars (Setvars t vars)).nodupKeys.nodup hmem
  · intro hval
    have hvalid : os.validSetenv k v = false := by
      cases h : os.validSetenv k v with
      | false => rfl
      | true => exact absurd ((validSetenv_iff k v).1 h) hval
    rw [lookup_Getvars_Setvars_any, hkv]
    simp [Option.filter, hvalid]

/-- An instance of amended C4: of the pairs `A: 9` and `X=Y: z`, set on the table
of the test-suite, the first is in the snapshot, although `os.Setenv` rejects
the second. -/
theorem Setvars_roundtrip_witness :
    ((single "A" "9").insert "X=Y".toList "z".toList).lookup "A".toList = some "9".toList ∧
    (Getvars (Setvars testTable ((single "A" "9").insert "X=Y".toList "z".toList))).lookup
      "A".toList = some "9".toList :=
  ⟨by decide,
    ((Setvars_roundtrip testTable ((single "A" "9").insert "X=Y".toList "z".toList)
      "A".toList "9".toList (by decide)).1 (by decide)).1⟩

/-- C5, as stated, fails: an entry whose name is empty is never unset (`Getnames`
skips the empty name), so on the table holding the single entry `=x` the
snapshot after `Clear()` still has a key although no name is excepted. -/
theorem Clear_keys_fails :
    ¬ (∀ k : Str, k ∈ Getvars (Clear ["=x".toList] []) ↔
        k ∈ Getvars ["=x".toList] ∧ k ∈ ([] : List Str)) := by
  intro h
  have h1 : ([] : Str) ∈ (Getvars (Clear ["=x".toList] [])).keys := by decide
  have h2 := (h []).1 (AList.mem_keys.1 h1)
  simp at h2

/-- C5, amended: the table after `Clear(exceptions)` is the table before without
the entries whose name is non-empty and not in `exceptions` (exact equality of
names); so the keys of the snapshot after the clear are exactly the keys of the
snapshot before it that are in `exceptions` or are the empty name, `Clear()`
with no exceptions leaves exactly the entries that have no `=` or an empty
name, and the number of keys left is the number of earlier keys that are in
`exceptions` or empty. -/
theorem Clear_keys (t : Table) (exceptions : List Str) :
    Clear t exceptions = t.filter (fun s => survives exceptions (entryName s)) ∧
    (∀ k, k ∈ Getvars (Clear t exceptions) ↔
      k ∈ Getvars t ∧ (k ∈ exceptions ∨ k = [])) ∧
    Clear t [] = t.filter (fun s => decide (entryName s = none ∨ entryName s = some [])) ∧
    (Getvars (Clear t exceptions)).keys.length =
      ((Getvars t).keys.filter (fun k => decide (k ∈ exceptions ∨ k = []))).length := by
  refine ⟨Clear_eq t exceptions, fun k => mem_Getvars_Clear t exceptions k, ?_, ?_⟩
  · rw [Clear_eq]
    apply List.filter_congr
    intro s _
    cases hn : entryName s <;> simp [survives]
  · apply List.Perm.length_eq
    rw [List.perm_ext_iff_of_nodup (AList.keys_nodup _) ((AList.keys_nodup _).filter _)]
    intro k
    rw [List.mem_filter, ← AList.mem_keys, ← AList.mem_keys, mem_Getvars_Clear]
    simp

/-- C6, as stated, fails: on the table holding the single entry `=x` the
snapshot has the empty name as a key, while `Exists("")` is false. -/
theorem Exists_iff_key_fails :
    ¬ (Exists ["=x".toList] [] = true ↔ ([] : Str) ∈ (Getvars ["=x".toList]).keys) := by
  decide

/-- C6, amended: `Exists(name)` is true if and only if `name` is not the empty
string and is a key of the snapshot that `Getvars()` returns for the same
table. -/
theorem Exists_iff_key (t : Table) (name : Str) :
    Exists t name = true ↔ name ≠ [] ∧ name ∈ Getvars t :=
  Exists_iff t name

/-- C7: `Getnames(vars)` has no duplicates, never contains the empty string,
contains exactly the non-empty keys of `vars`, and its length is the number of
non-empty keys of `vars`. -/
theorem Getnames_spec (vars : GoMap) :
    (Getnames vars).Nodup ∧
    ([] : Str) ∉ Getnames vars ∧
    (∀ n, n ∈ Getnames vars ↔ n ∈ vars ∧ n ≠ []) ∧
    (Getnames vars).length = (vars.keys.toFinset.filter (fun n => n ≠ [])).card := by
  refine ⟨?_, ?_, fun n => mem_Getnames vars n, ?_⟩
  · rw [Getnames_eq]
    exact (AList.keys_nodup vars).filter _
  · intro h
    exact ((mem_Getnames vars []).1 h).2 rfl
  · have hnd : (Getnames vars).Nodup := by
      rw [Getnames_eq]
      exact (AList.keys_nodup vars).filter _
    rw [← List.toFinset_card_of_nodup hnd]
    congr 1
    ext n
    simp only [List.mem_toFinset, Finset.mem_filter, AList.mem_keys]
    exact mem_Getnames vars n

/-- C8, as stated, fails: `os.Setenv` rejects the name `X=Y` and `Setvars` drops
the error, so the snapshot after `Setvars({"X=Y": "z"})` on the table of the
test-suite has no key `X=Y`, while `Join(snapshot before, vars)` has it. -/
theorem Setvars_eq_Join_fails :
    ¬ (∀ k : Str, (Getvars (Setvars testTable (single "X=Y" "z"))).lookup k =
        (Join (Getvars testTable) (single "X=Y" "z")).lookup k) := by
  intro h
  have h1 : (Getvars (Setvars testTable (single "X=Y" "z"))).lookup "X=Y".toList = none := by
    decide
  have h2 : (Join (Getvars testTable) (single "X=Y" "z")).lookup "X=Y".toList
      = some "z".toList := by
    decide
  have h3 := h "X=Y".toList
  rw [h1, h2] at h3
  exact absurd h3 (by simp)

/-- C8, amended: the snapshot taken after `Setvars(vars)` has the same keys and
values as `Join(snapshot before, accepted vars)`, where `accepted vars` is
`vars` without the pairs that `os.Setenv` rejects (an empty name, a name with
`=` or NUL, a value with NUL): every variable that `vars` names with an
accepted pair has the new value, overwriting any previous one, and every
variable not named in `vars` (one whose name differs only in case included) is
present exactly when it was before, with its previous value.  When no pair of
`vars` is rejected, this is `Join(snapshot before, vars)`. -/
theorem Setvars_eq_Join (t : Table) (vars : GoMap) :
    (∀ k, (Getvars (Setvars t vars)).lookup k =
      (Join (Getvars t) (accepted vars)).lookup k) ∧
    (∀ k v, vars.lookup k = some v →
      k ≠ [] ∧ '=' ∉ k ∧ Char.ofNat 0 ∉ k ∧ Char.ofNat 0 ∉ v →
      (Getvars (Setvars t vars)).lookup k = some v) ∧
    (∀ k, k ∉ vars → (Getvars (Setvars t vars)).lookup k = (Getvars t).lookup k) ∧
    ((∀ e ∈ vars.entries,
        e.1 ≠ [] ∧ '=' ∉ e.1 ∧ Char.ofNat 0 ∉ e.1 ∧ Char.ofNat 0 ∉ e.2) →
      ∀ k, (Getvars (Setvars t vars)).lookup k = (Join (Getvars t) vars).lookup k) := by
  refine ⟨?_, ?_, ?_, ?_⟩
  · intro k
    rw [lookup_Getvars_Setvars_any, lookup_Join, lookup_accepted]
  · intro k v hkv hval
    have hvalid : os.validSetenv k v = true := (validSetenv_iff k v).2 hval
    rw [lookup_Getvars_Setvars_any, hkv]
    simp [Option.filter, hvalid]
  · intro k hk
    rw [lookup_Getvars_Setvars_any, AList.lookup_eq_none.2 hk]
    simp [Option.filter]
  · intro hval k
    have hval2 : ∀ e ∈ vars.entries, os.validSetenv e.1 e.2 = true :=
      fun e he => (validSetenv_iff e.1 e.2).2 (hval e he)
    rw [lookup_Getvars_Setvars t vars hval2, lookup_Join]

/-- An instance of amended C8: setting `path`, together with a pair `X=Y: z` that
`os.Setenv` rejects, on the table of the test-suite leaves `PATH` with its
previous value. -/
theorem Setvars_eq_Join_witness :
    (Getvars (Setvars testTable
      ((single "path" "/usr/bin").insert "X=Y".toList "z".toList))).lookup "PATH".toList =
      (Getvars testTable).lookup "PATH".toList :=
  (Setvars_eq_Join testTable
    ((single "path" "/usr/bin").insert "X=Y".toList "z".toList)).2.2.1 "PATH".toList
    (by decide)

/-- C9: `Clear` only removes entries: the table after `Clear(exceptions)` is a
sublist of the table before, and every variable that is still present in the
snapshot has exactly the value it had before the clear. -/
theorem Clear_preserves_values (t : Table) (exceptions : List Str) :
    (Clear t exceptions).Sublist t ∧
    (∀ k ∈ Getvars (Clear t exceptions),
      (Getvars (Clear t exceptions)).lookup k = (Getvars t).lookup k) := by
  constructor
  · rw [Clear_eq]
    exact List.filter_sublist t
  · intro k hk
    have hsome := AList.lookup_isSome.2 hk
    rw [lookup_Getvars_Clear] at hsome ⊢
    by_cases hc : k = [] ∨ k ∈ exceptions
    · rw [if_pos hc]
    · rw [if_neg hc] at hsome
      simp at hsome

/-- An instance of C9: after `Clear("PATH")` on the table of the test-suite,
`PATH` has the value it had before. -/
theorem Clear_preserves_values_witness :
    (Getvars (Clear testTable ["PATH".toList])).lookup "PATH".toList =
      (Getvars testTable).lookup "PATH".toList :=
  (Clear_preserves_values testTable ["PATH".toList]).2 "PATH".toList
    (AList.mem_keys.2 (by decide))

/-- C10: `Join` with an empty `base` returns `override`; and for every `base` and
`override`, `Join` returns a mapping with the same keys and values (the same
entries, up to their order) as the merge that always copies `base` into a fresh
mapping and then writes every entry of `override` into it. -/
theorem Join_shortcut (base override : GoMap) :
    Join ∅ override = override ∧
    (∀ k, (Join base override).lookup k = (JoinCopy base override).lookup k) ∧
    (Join base override).entries.Perm (JoinCopy base override).entries := by
  have hl : ∀ k, (Join base override).lookup k = (JoinCopy base override).lookup k := by
    intro k
    rw [lookup_Join, lookup_JoinCopy]
  refine ⟨?_, hl, ?_⟩
  · simp [Join]
  · apply List.lookup_ext (Join base override).nodupKeys (JoinCopy base override).nodupKeys
    intro x y
    have := hl x
    simp only [AList.lookup] at this
    rw [this]

/-- C11: an entry without `=` contributes nothing to the snapshot: the loop of
`Getvars` leaves the mapping as it is on such an entry, dropping all such
entries from the list gives the same snapshot, and the keys of the snapshot
are exactly the prefixes before the first `=` of the entries that contain
one. -/
theorem Getvars_skips_entries_without_eq (t : List Str) :
    (∀ vars line, '=' ∉ line → GetvarsStep vars line = vars) ∧
    Getvars (t.filter (fun l => l.contains '=')) = Getvars t ∧
    (∀ k, k ∈ Getvars t ↔ ∃ v, (k ++ '=' :: v) ∈ t ∧ '=' ∉ k) := by
  refine ⟨fun vars line h => GetvarsStep_of_not_mem vars line h, ?_,
    fun k => mem_Getvars_iff_prefix t k⟩
  exact Getvars_filter t

/-- An instance of C11: the entry `FOO`, which has no `=`, leaves the snapshot of
the test-suite table as it is. -/
theorem Getvars_skips_entries_without_eq_witness :
    GetvarsStep (Getvars testTable) "FOO".toList = Getvars testTable :=
  (Getvars_skips_entries_without_eq testTable).1 (Getvars testTable) "FOO".toList (by decide)

/-- C12, as stated, fails for the empty name: on the table holding the single
entry `=` the empty name is set to the empty string, and `Exists("")` is
false. -/
theorem Exists_empty_value_fails :
    ¬ ((Getvars ["=".toList]).lookup [] = some [] → Exists ["=".toList] [] = true) := by
  decide

/-- C12, amended: for every non-empty name that is set to the empty string in
the table, `Exists(name)` is true; in particular after `Setvars({name: ""})`,
for a name free of `=` and NUL, the name is set to the empty string and
`Exists(name)` is true. -/
theorem Exists_empty_value (t : Table) (name : Str) (hne : name ≠ []) :
    ((Getvars t).lookup name = some [] → Exists t name = true) ∧
    ('=' ∉ name → Char.ofNat 0 ∉ name →
      (Getvars (Setvars t ((∅ : GoMap).insert name []))).lookup name = some [] ∧
      Exists (Setvars t ((∅ : GoMap).insert name [])) name = true) := by
  have hex : ∀ t', (Getvars t').lookup name = some [] → Exists t' name = true := by
    intro t' h
    rw [Exists_iff]
    exact ⟨hne, AList.lookup_isSome.1 (by simp [h])⟩
  refine ⟨hex t, ?_⟩
  intro h1 h2
  have hval : ∀ e ∈ ((∅ : GoMap).insert name []).entries, os.validSetenv e.1 e.2 = true := by
    intro e he
    have he2 : e = ⟨name, []⟩ := by simpa using he
    subst he2
    exact (validSetenv_iff name []).2 ⟨hne, h1, h2, by simp⟩
  have hl : (Getvars (Setvars t ((∅ : GoMap).insert name []))).lookup name = some [] := by
    rw [lookup_Getvars_Setvars t _ hval, AList.lookup_insert]
    rfl
  exact ⟨hl, hex _ hl⟩

/-- An instance of amended C12: after `Setvars({"EMPTY": ""})` on the table of
the test-suite, `Exists("EMPTY")` is true. -/
theorem Exists_empty_value_witness :
    "EMPTY".toList ≠ [] ∧
    Exists (Setvars testTable ((∅ : GoMap).insert "EMPTY".toList [])) "EMPTY".toList = true :=
  ⟨by decide,
    ((Exists_empty_value testTable "EMPTY".toList (by decide)).2 (by decide) (by decide)).2⟩

/-- C13: `Join` is associative on the contents of mappings: `Join(Join(a, b), c)`
and `Join(a, Join(b, c))` have the same keys and values (the same entries, up
to their order). -/
theorem Join_assoc (a b c : GoMap) :
    (∀ k, (Join (Join a b) c).lookup k = (Join a (Join b c)).lookup k) ∧
    (Join (Join a b) c).entries.Perm (Join a (Join b c)).entries := by
  have hl : ∀ k, (Join (Join a b) c).lookup k = (Join a (Join b c)).lookup k := by
    intro k
    rw [lookup_Join, lookup_Join, lookup_Join, lookup_Join]
    cases c.lookup k <;> cases b.lookup k <;> cases a.lookup k <;> rfl
  refine ⟨hl, ?_⟩
  apply List.lookup_ext (Join (Join a b) c).nodupKeys (Join a (Join b c)).nodupKeys
  intro x y
  have := hl x
  simp only [AList.lookup] at this
  rw [this]

/-- C14, as stated, fails: the platform keeps the first entry of a name and
blanks the later ones, so of the raw entries `A=1`, `A=2`, `B=x` the snapshot
does not give `A` the value `2` of the last entry named `A`. -/
theorem Getvars_last_wins_fails :
    ¬ ((Getvars ["A=1".toList, "A=2".toList, "B=x".toList]).lookup "A".toList =
        some "2".toList) := by
  decide

/-- C14, amended: when several raw entries have the same name, the snapshot maps
the name to the value of the first of them: for an entry `n=v` that no earlier
entry shares its name with, the snapshot maps `n` to `v`, whatever comes
after. -/
theorem Getvars_first_wins (t1 t2 : List Str) (n v : Str) (hn : '=' ∉ n)
    (hfirst : ∀ s ∈ t1, entryName s ≠ some n) :
    (Getvars (t1 ++ (n ++ '=' :: v) :: t2)).lookup n = some v := by
  rw [lookup_Getvars, firstValue_append_of_not_named n t1 _ hfirst, firstValue_cons,
    entryName_append n v hn, entryValue_append n v hn]
  simp

/-- An instance of amended C14: of the entries `B=x`, `A=1`, `A=2`, the snapshot
keeps the value `1` for `A`. -/
theorem Getvars_first_wins_witness :
    (Getvars (["B=x".toList] ++ ("A".toList ++ '=' :: "1".toList) :: ["A=2".toList])).lookup
      "A".toList = some "1".toList :=
  Getvars_first_wins ["B=x".toList] ["A=2".toList] "A".toList "1".toList (by decide)
    (by decide)

/-- C15: the effect of `Clear` depends only on the set of excepted names: two
exception lists with the same elements, in whatever order and with whatever
repetitions, leave the same table. -/
theorem Clear_exceptions_as_set (t : Table) (e1 e2 : List Str)
    (h : ∀ x, x ∈ e1 ↔ x ∈ e2) : Clear t e1 = Clear t e2 := by
  rw [Clear_eq, Clear_eq]
  apply List.filter_congr
  intro s _
  exact survives_congr e1 e2 h (entryName s)

/-- An instance of C15: excepting `PATH` twice, after ` LANG `, is the same as
excepting ` LANG ` after `PATH`. -/
theorem Clear_exceptions_as_set_witness :
    Clear testTable [" LANG ".toList, "PATH".toList, "PATH".toList] =
      Clear testTable ["PATH".toList, " LANG ".toList] :=
  Clear_exceptions_as_set testTable _ _ (by
    intro x
    simp only [List.mem_cons, List.mem_singleton, List.not_mem_nil, or_false]
    tauto)

/-- C16: `contains(s, e)` is true if and only if some element of `s` is exactly
equal to `e`; it is false for the empty list. -/
theorem contains_spec (s : List Str) (e : Str) :
    (contains s e = true ↔ ∃ a ∈ s, a = e) ∧ contains [] e = false := by
  refine ⟨?_, rfl⟩
  rw [contains_iff]
  constructor
  · exact fun h => ⟨e, h, rfl⟩
  · rintro ⟨a, ha, rfl⟩
    exact ha

end env
